import Mathlib

/-!
A verification development for the BergLoom compaction core.

The definitions below are shallow embeddings of the Rust sources:

* `src/core/src/executor/datafusion/iceberg_file_task_scan.rs`
  (`split_n_vecs`, `add_seq_num_into_batch`, `add_file_path_pos_into_batch`,
  the consumer loop of `get_batch_stream`), and
* `src/core/src/compaction/mod.rs`
  (`get_tasks_from_table`, `get_old_files_from_table`, `Compaction::full_compact`).

Machine integers are modeled as `Nat`/`Int`; the only place where `u64`
overflow can matter (`FileScanTaskGroup.total_length += task.length`) applies
an explicit `% 2 ^ 64`, matching release-mode wrapping arithmetic.
Fallible Rust code returns `Except`; code that can `panic!` / `unreachable!`
/ `unwrap()` on `None` returns a `POutcome` with a dedicated `panic` outcome.
-/

/-- Outcome of a Rust computation that may return `Ok`, return `Err`,
or panic (`unwrap` on `None` / `unreachable!`). -/
inductive POutcome (ε α : Type) : Type where
  | ok (a : α)
  | err (e : ε)
  | panic
deriving DecidableEq

/-- `iceberg::spec::DataContentType`. -/
inductive DataContentType : Type where
  | Data
  | PositionDeletes
  | EqualityDeletes
deriving DecidableEq

/-- `iceberg::scan::FileScanTask`, restricted to the fields the compaction
core reads: `data_file_path`, `data_file_content`, `length`,
`sequence_number`, `project_field_ids`, `equality_ids` and `deletes`.
The `deletes` field is a nested list of tasks, as in the source
(`deletes: Vec<FileScanTask>`). -/
inductive FileScanTask : Type where
  | mk (data_file_path : String) (data_file_content : DataContentType)
      (length : Nat) (sequence_number : Int)
      (project_field_ids : List Nat) (equality_ids : List Nat)
      (deletes : List FileScanTask) : FileScanTask

def FileScanTask.data_file_path : FileScanTask → String
  | .mk p _ _ _ _ _ _ => p

def FileScanTask.data_file_content : FileScanTask → DataContentType
  | .mk _ c _ _ _ _ _ => c

def FileScanTask.length : FileScanTask → Nat
  | .mk _ _ l _ _ _ _ => l

def FileScanTask.sequence_number : FileScanTask → Int
  | .mk _ _ _ s _ _ _ => s

def FileScanTask.project_field_ids : FileScanTask → List Nat
  | .mk _ _ _ _ f _ _ => f

def FileScanTask.equality_ids : FileScanTask → List Nat
  | .mk _ _ _ _ _ e _ => e

def FileScanTask.deletes : FileScanTask → List FileScanTask
  | .mk _ _ _ _ _ _ d => d

/-- `task` with its `project_field_ids` field replaced
(models `delete_task.project_field_ids = ...` on a cloned task). -/
def FileScanTask.withProjectFieldIds (t : FileScanTask) (ids : List Nat) : FileScanTask :=
  match t with
  | .mk p c l s _ e d => .mk p c l s ids e d

/-! ## Task splitter: `split_n_vecs` (iceberg_file_task_scan.rs, lines 118-174) -/

/-- The modulus of `u64` arithmetic. -/
def U64MOD : Nat := 2 ^ 64

/-- The local `FileScanTaskGroup` of `split_n_vecs`: original slot index,
accumulated tasks, and the running `u64` total byte length. -/
structure FileScanTaskGroup : Type where
  idx : Nat
  tasks : List FileScanTask
  total_length : Nat

/-- The `Ord` implementation of `FileScanTaskGroup` as a relation:
compare `total_length` first and break ties by `idx`.
`lexLe a b` says `a ≤ b` in this order. -/
def lexLe (a b : FileScanTaskGroup) : Prop :=
  a.total_length < b.total_length ∨
    (a.total_length = b.total_length ∧ a.idx ≤ b.idx)

instance (a b : FileScanTaskGroup) : Decidable (lexLe a b) := by
  unfold lexLe; infer_instance

/-- `group.0.total_length += file_task.length; group.0.tasks.push(file_task)`:
append the task and add its length with `u64` wrapping. -/
def pushTask (t : FileScanTask) (g : FileScanTaskGroup) : FileScanTaskGroup :=
  ⟨g.idx, g.tasks ++ [t], (g.total_length + t.length) % U64MOD⟩

/-- The least group (w.r.t. the `Ord` of `FileScanTaskGroup`) among `g` and
`gs`; this is the element `BinaryHeap<Reverse<FileScanTaskGroup>>::peek_mut`
yields, since `peek` of the reversed heap returns the minimum group. -/
def heapMin (g : FileScanTaskGroup) : List FileScanTaskGroup → FileScanTaskGroup
  | [] => g
  | g' :: gs => if lexLe g g' then heapMin g gs else heapMin g' gs

/-- One iteration of the `for file_task in file_scan_tasks` loop: push `t`
into the group currently holding the least `(total_length, idx)` key.
The list keeps the remaining groups in place, so group order is stable. -/
def addTask (t : FileScanTask) : List FileScanTaskGroup → List FileScanTaskGroup
  | [] => []
  | g :: gs =>
    if lexLe g (heapMin g gs) then pushTask t g :: gs
    else g :: addTask t gs

/-- One loop step threaded through the possibility of a panic:
`heap.peek_mut().unwrap()` panics when the heap holds no group. -/
def splitStep (st : Option (List FileScanTaskGroup)) (t : FileScanTask) :
    Option (List FileScanTaskGroup) :=
  match st with
  | none => none
  | some [] => none
  | some (g :: gs) => some (addTask t (g :: gs))

/-- `split_n_vecs(file_scan_tasks, split_num)`: distribute the tasks over
`split_num` groups by repeatedly pushing the next task into the least-loaded
group. `none` models a panic of the Rust function. The groups are returned
in slot order; `BinaryHeap::into_vec` returns them in the heap's internal
(deterministic) layout, a fixed permutation of the same groups, which no
property below depends on. -/
def initGroups (split_num : Nat) : List FileScanTaskGroup :=
  (List.range split_num).map (fun idx => ⟨idx, [], 0⟩)

def split_n_vecs (file_scan_tasks : List FileScanTask) (split_num : Nat) :
    Option (List (List FileScanTask)) :=
  (file_scan_tasks.foldl splitStep (some (initGroups split_num))).map
    (List.map FileScanTaskGroup.tasks)

/-- Total byte length of a list of tasks (`Σ task.length`, unbounded). -/
def sumLen (ts : List FileScanTask) : Nat :=
  (ts.map FileScanTask.length).sum

/-- The largest single task length in a list (`0` for the empty list). -/
def maxLen (ts : List FileScanTask) : Nat :=
  (ts.map FileScanTask.length).foldr max 0

/-! ## Order lemmas for the group ordering -/

theorem lexLe_refl (a : FileScanTaskGroup) : lexLe a a := by
  unfold lexLe; omega

theorem lexLe_trans {a b c : FileScanTaskGroup} (h1 : lexLe a b) (h2 : lexLe b c) :
    lexLe a c := by
  unfold lexLe at *; omega

theorem lexLe_total (a b : FileScanTaskGroup) : lexLe a b ∨ lexLe b a := by
  unfold lexLe; omega

theorem lexLe_len {a b : FileScanTaskGroup} (h : lexLe a b) :
    a.total_length ≤ b.total_length := by
  unfold lexLe at h; omega

theorem heapMin_mem (g : FileScanTaskGroup) (gs : List FileScanTaskGroup) :
    heapMin g gs ∈ g :: gs := by
  induction gs generalizing g with
  | nil => simp [heapMin]
  | cons g' gs ih =>
    by_cases hc : lexLe g g'
    · have := ih g
      simp only [heapMin, hc, if_true]
      rcases List.mem_cons.mp this with h | h
      · rw [h]; exact List.mem_cons_self _ _
      · exact List.mem_cons_of_mem _ (List.mem_cons_of_mem _ h)
    · have := ih g'
      simp only [heapMin, hc, if_false]
      rcases List.mem_cons.mp this with h | h
      · rw [h]; exact List.mem_cons_of_mem _ (List.mem_cons_self _ _)
      · exact List.mem_cons_of_mem _ (List.mem_cons_of_mem _ h)

theorem heapMin_le (g : FileScanTaskGroup) (gs : List FileScanTaskGroup) :
    ∀ x ∈ g :: gs, lexLe (heapMin g gs) x := by
  induction gs generalizing g with
  | nil =>
    intro x hx
    rcases List.mem_cons.mp hx with h | h
    · exact h ▸ lexLe_refl g
    · exact absurd h (List.not_mem_nil x)
  | cons g' gs ih =>
    intro x hx
    by_cases hc : lexLe g g'
    · simp only [heapMin, hc, if_true]
      rcases List.mem_cons.mp hx with h | h
      · exact h ▸ ih g g (List.mem_cons_self _ _)
      · rcases List.mem_cons.mp h with h2 | h2
        · exact h2 ▸ lexLe_trans (ih g g (List.mem_cons_self _ _)) hc
        · exact ih g x (List.mem_cons_of_mem _ h2)
    · have hgg : lexLe g' g := (lexLe_total g g').resolve_left hc
      simp only [heapMin, hc, if_false]
      rcases List.mem_cons.mp hx with h | h
      · exact h ▸ lexLe_trans (ih g' g' (List.mem_cons_self _ _)) hgg
      · rcases List.mem_cons.mp h with h2 | h2
        · exact h2 ▸ ih g' g' (List.mem_cons_self _ _)
        · exact ih g' x (List.mem_cons_of_mem _ h2)

/-- Decomposition of one splitter step: `addTask t` rewrites exactly one
group of the heap, namely the group that is least in the
`(total_length, idx)` order, and leaves every other group in place. -/
theorem addTask_spec (t : FileScanTask) :
    ∀ gs : List FileScanTaskGroup, gs ≠ [] →
    ∃ pre m post, gs = pre ++ m :: post ∧
      addTask t gs = pre ++ pushTask t m :: post ∧
      ∀ g ∈ gs, lexLe m g := by
  intro gs
  induction gs with
  | nil => intro h; exact absurd rfl h
  | cons g gs ih =>
    intro _
    by_cases hc : lexLe g (heapMin g gs)
    · refine ⟨[], g, gs, rfl, ?_, ?_⟩
      · simp [addTask, hc]
      · intro x hx
        exact lexLe_trans hc (heapMin_le g gs x hx)
    · have hmem : heapMin g gs ∈ g :: gs := heapMin_mem g gs
      have hne : heapMin g gs ≠ g := by
        intro h; rw [h] at hc; exact hc (lexLe_refl g)
      have hmem' : heapMin g gs ∈ gs := by
        rcases List.mem_cons.mp hmem with h | h
        · exact absurd h hne
        · exact h
      have hgs : gs ≠ [] := by
        intro h; rw [h] at hmem'; exact absurd hmem' (List.not_mem_nil _)
      obtain ⟨pre, m, post, hdec, hadd, hmin⟩ := ih hgs
      have hminle : lexLe m g := by
        have h1 : lexLe (heapMin g gs) g := (lexLe_total g (heapMin g gs)).resolve_left hc
        exact lexLe_trans (hmin _ hmem') h1
      refine ⟨g :: pre, m, post, by simp [hdec], ?_, ?_⟩
      · simp [addTask, hc, hadd]
      · intro x hx
        rcases List.mem_cons.mp hx with h | h
        · exact h ▸ hminle
        · exact hmin x h

theorem addTask_length (t : FileScanTask) (gs : List FileScanTaskGroup) :
    (addTask t gs).length = gs.length := by
  induction gs with
  | nil => rfl
  | cons g gs ih =>
    by_cases hc : lexLe g (heapMin g gs) <;> simp [addTask, hc, ih]

theorem addTask_ne_nil (t : FileScanTask) (gs : List FileScanTaskGroup)
    (h : gs ≠ []) : addTask t gs ≠ [] := by
  intro habs
  have := addTask_length t gs
  rw [habs] at this
  cases gs with
  | nil => exact h rfl
  | cons g gs => simp at this

/-- All tasks held by a heap state, in group order. -/
def joinTasks (gs : List FileScanTaskGroup) : List FileScanTask :=
  (gs.map FileScanTaskGroup.tasks).flatten

theorem addTask_join_perm (t : FileScanTask) (gs : List FileScanTaskGroup)
    (h : gs ≠ []) :
    List.Perm (joinTasks (addTask t gs)) (t :: joinTasks gs) := by
  obtain ⟨pre, m, post, hdec, hadd, _⟩ := addTask_spec t gs h
  rw [hadd, hdec]
  simp only [joinTasks, pushTask, List.map_append, List.map_cons,
    List.flatten_append, List.flatten_cons]
  have h1 :
      ((pre.map FileScanTaskGroup.tasks).flatten ++ m.tasks) ++
        t :: (post.map FileScanTaskGroup.tasks).flatten =
      (pre.map FileScanTaskGroup.tasks).flatten ++ ((m.tasks ++ [t]) ++
        (post.map FileScanTaskGroup.tasks).flatten) := by
    simp [List.append_assoc]
  have h2 : List.Perm
      (((pre.map FileScanTaskGroup.tasks).flatten ++ m.tasks) ++
        t :: (post.map FileScanTaskGroup.tasks).flatten)
      (t :: (((pre.map FileScanTaskGroup.tasks).flatten ++ m.tasks) ++
        (post.map FileScanTaskGroup.tasks).flatten)) := List.perm_middle
  rw [h1] at h2
  refine h2.trans (List.Perm.cons t ?_)
  simp [List.append_assoc]

/-! ## Fold lemmas for the splitter loop -/

/-- The heap state after feeding all of `ts` into state `st`. -/
def foldTasks (st : List FileScanTaskGroup) (ts : List FileScanTask) :
    List FileScanTaskGroup :=
  ts.foldl (fun s t => addTask t s) st

theorem foldTasks_ne_nil (ts : List FileScanTask) :
    ∀ st : List FileScanTaskGroup, st ≠ [] → foldTasks st ts ≠ [] := by
  induction ts with
  | nil => intro st h; exact h
  | cons t ts ih =>
    intro st h
    exact ih (addTask t st) (addTask_ne_nil t st h)

theorem foldTasks_length (ts : List FileScanTask) :
    ∀ st : List FileScanTaskGroup, (foldTasks st ts).length = st.length := by
  induction ts with
  | nil => intro st; rfl
  | cons t ts ih =>
    intro st
    have := ih (addTask t st)
    rw [foldTasks] at *
    simp only [List.foldl_cons, this, addTask_length]

theorem foldl_splitStep_none (ts : List FileScanTask) :
    ts.foldl splitStep none = none := by
  induction ts with
  | nil => rfl
  | cons t ts ih => simpa [splitStep] using ih

theorem foldl_splitStep_some (ts : List FileScanTask) :
    ∀ st : List FileScanTaskGroup, st ≠ [] →
    ts.foldl splitStep (some st) = some (foldTasks st ts) := by
  induction ts with
  | nil => intro st _; rfl
  | cons t ts ih =>
    intro st hne
    cases st with
    | nil => exact absurd rfl hne
    | cons g gs =>
      have h1 : splitStep (some (g :: gs)) t = some (addTask t (g :: gs)) := rfl
      calc (t :: ts).foldl splitStep (some (g :: gs))
          = ts.foldl splitStep (some (addTask t (g :: gs))) := by
            simp only [List.foldl_cons, h1]
        _ = some (foldTasks (addTask t (g :: gs)) ts) :=
            ih _ (addTask_ne_nil t _ (List.cons_ne_nil g gs))
        _ = some (foldTasks (g :: gs) (t :: ts)) := rfl

theorem foldTasks_join_perm (ts : List FileScanTask) :
    ∀ st : List FileScanTaskGroup, st ≠ [] →
    List.Perm (joinTasks (foldTasks st ts)) (joinTasks st ++ ts) := by
  induction ts with
  | nil => intro st _; simp [foldTasks]
  | cons t ts ih =>
    intro st hne
    have h1 : foldTasks st (t :: ts) = foldTasks (addTask t st) ts := rfl
    rw [h1]
    have h2 := ih (addTask t st) (addTask_ne_nil t st hne)
    have h3 := (addTask_join_perm t st hne).append_right ts
    refine (h2.trans h3).trans ?_
    have h4 : List.Perm (joinTasks st ++ t :: ts) (t :: (joinTasks st ++ ts)) :=
      List.perm_middle
    simpa using h4.symm

theorem initGroups_length (n : Nat) : (initGroups n).length = n := by
  simp [initGroups]

theorem initGroups_ne_nil {n : Nat} (h : 1 ≤ n) : initGroups n ≠ [] := by
  intro habs
  have := initGroups_length n
  rw [habs] at this
  simp at this
  omega

theorem joinTasks_initGroups (n : Nat) : joinTasks (initGroups n) = [] := by
  rw [joinTasks, List.flatten_eq_nil_iff]
  intro l hl
  rw [initGroups, List.map_map] at hl
  rcases List.mem_map.mp hl with ⟨i, _, h⟩
  exact h.symm

/-! ## Concrete fixtures used by counterexamples and witnesses -/

/-- A concrete data-content scan task with no deletes. -/
def plainTask (name : String) (len : Nat) : FileScanTask :=
  .mk name .Data len 0 [] [] []

/-- C5 (amended): for every task list and every `N` with `N ≥ 1` (or an empty
task list), `split_n_vecs` returns without panicking exactly `N` groups, and
flattening the groups yields a permutation (equal multiset) of the input
tasks. The original claim quantified over every `N` including `N = 0`
with non-empty input, where the code panics instead (see the
counterexample). -/
theorem split_n_vecs_count_and_multiset (tasks : List FileScanTask) (n : Nat)
    (h : 1 ≤ n ∨ tasks = []) :
    ∃ groups, split_n_vecs tasks n = some groups ∧ groups.length = n ∧
      List.Perm groups.flatten tasks := by
  rcases h with h | h
  · have hne := initGroups_ne_nil h
    refine ⟨(foldTasks (initGroups n) tasks).map FileScanTaskGroup.tasks, ?_, ?_, ?_⟩
    · rw [split_n_vecs, foldl_splitStep_some tasks _ hne]
      rfl
    · rw [List.length_map, foldTasks_length, initGroups_length]
    · have h2 := foldTasks_join_perm tasks (initGroups n) hne
      rw [joinTasks_initGroups] at h2
      simpa [joinTasks] using h2
  · subst h
    refine ⟨(initGroups n).map FileScanTaskGroup.tasks, rfl, ?_, ?_⟩
    · rw [List.length_map, initGroups_length]
    · have h2 := joinTasks_initGroups n
      rw [joinTasks] at h2
      rw [h2]

/-- C5 witness: a concrete instance of the amended claim. -/
theorem split_n_vecs_count_and_multiset_witness :
    ∃ groups,
      split_n_vecs [plainTask "a" 7, plainTask "b" 2] 3 = some groups ∧
      groups.length = 3 ∧
      List.Perm groups.flatten [plainTask "a" 7, plainTask "b" 2] :=
  split_n_vecs_count_and_multiset [plainTask "a" 7, plainTask "b" 2] 3
    (Or.inl (by omega))

/-- C5 counterexample: with `split_num = 0` and a non-empty task list the
Rust function panics (`heap.peek_mut().unwrap()` on an empty heap) instead
of returning exactly `0` groups: the model returns `none` (= panic), not
`some` of any group vector. -/
theorem split_n_vecs_zero_nonempty_panics :
    split_n_vecs [plainTask "a" 1] 0 = none := rfl

/-- C9: `split_n_vecs` panics on a non-empty task list with `split_num = 0`
(the heap is empty, so `peek_mut().unwrap()` fails at the first task);
`split_n_vecs [] 0` returns the empty group vector; and under the
precondition `split_num ≥ 1` the function is total (never panics). -/
theorem split_n_vecs_totality :
    (∀ t ts, split_n_vecs (t :: ts) 0 = none) ∧
    split_n_vecs [] 0 = some [] ∧
    (∀ tasks n, 1 ≤ n → (split_n_vecs tasks n).isSome = true) := by
  refine ⟨?_, rfl, ?_⟩
  · intro t ts
    rw [split_n_vecs]
    have h1 : splitStep (some (initGroups 0)) t = none := rfl
    simp only [List.foldl_cons, h1, foldl_splitStep_none, Option.map_none']
  · intro tasks n h
    rw [split_n_vecs, foldl_splitStep_some tasks _ (initGroups_ne_nil h)]
    rfl

/-- C9 witness: concrete instances discharging each hypothesis. -/
theorem split_n_vecs_totality_witness :
    split_n_vecs (plainTask "a" 1 :: []) 0 = none ∧
    (split_n_vecs [plainTask "b" 9] 1).isSome = true :=
  ⟨split_n_vecs_totality.1 (plainTask "a" 1) [],
    split_n_vecs_totality.2.2 [plainTask "b" 9] 1 (by omega)⟩

/-- C7: the splitter is deterministic — on identical inputs it returns
identical group contents in identical order — and each step assigns the next
task to the group least in the `(total_length, idx)` order, so a tie on
`total_length` is broken by the smaller original group index. -/
theorem split_n_vecs_deterministic :
    (∀ ts1 ts2 n1 n2, ts1 = ts2 → n1 = n2 →
      split_n_vecs ts1 n1 = split_n_vecs ts2 n2) ∧
    (∀ t gs, gs ≠ [] → ∃ pre m post, gs = pre ++ m :: post ∧
      addTask t gs = pre ++ pushTask t m :: post ∧
      ∀ g ∈ gs, m.total_length < g.total_length ∨
        (m.total_length = g.total_length ∧ m.idx ≤ g.idx)) := by
  constructor
  · intro ts1 ts2 n1 n2 h1 h2
    rw [h1, h2]
  · intro t gs h
    obtain ⟨pre, m, post, hdec, hadd, hmin⟩ := addTask_spec t gs h
    exact ⟨pre, m, post, hdec, hadd, fun g hg => hmin g hg⟩

/-- C7 witness: the determinism statement and the tie-break statement at a
concrete input (two empty groups tie on `total_length = 0`; the task goes to
the group with index `0`). -/
theorem split_n_vecs_deterministic_witness :
    split_n_vecs [plainTask "a" 4] 2 = split_n_vecs [plainTask "a" 4] 2 ∧
    (∃ pre m post,
      initGroups 2 = pre ++ m :: post ∧
      addTask (plainTask "a" 4) (initGroups 2) = pre ++ pushTask (plainTask "a" 4) m :: post ∧
      ∀ g ∈ initGroups 2, m.total_length < g.total_length ∨
        (m.total_length = g.total_length ∧ m.idx ≤ g.idx)) :=
  ⟨split_n_vecs_deterministic.1 _ _ 2 2 rfl rfl,
    split_n_vecs_deterministic.2 (plainTask "a" 4) (initGroups 2)
      (by rw [initGroups]; simp)⟩

/-! ## Balance of the splitter (C6) -/

theorem sumLen_append (a b : List FileScanTask) :
    sumLen (a ++ b) = sumLen a + sumLen b := by
  simp [sumLen]

theorem length_le_maxLen (ts : List FileScanTask) :
    ∀ x ∈ ts, x.length ≤ maxLen ts := by
  induction ts with
  | nil => intro x hx; exact absurd hx (List.not_mem_nil x)
  | cons t ts ih =>
    intro x hx
    rcases List.mem_cons.mp hx with h | h
    · subst h
      simp only [maxLen, List.map_cons, List.foldr_cons]
      omega
    · have := ih x h
      simp only [maxLen, List.map_cons, List.foldr_cons]
      simp only [maxLen] at this
      omega

theorem addTask_mem_cases (t : FileScanTask) (gs : List FileScanTaskGroup) :
    ∀ {pre m post}, gs = pre ++ m :: post →
      addTask t gs = pre ++ pushTask t m :: post →
      ∀ g ∈ addTask t gs, g = pushTask t m ∨ g ∈ gs := by
  intro pre m post hdec hadd g hg
  rw [hadd] at hg
  rcases List.mem_append.mp hg with h | h
  · exact Or.inr (hdec ▸ List.mem_append.mpr (Or.inl h))
  · rcases List.mem_cons.mp h with h | h
    · exact Or.inl h
    · exact Or.inr (hdec ▸ List.mem_append.mpr (Or.inr (List.mem_cons_of_mem _ h)))

/-- The balance invariant of the splitter loop: if every group's stored
`total_length` equals the true byte total of its tasks, all pairs of groups
are within `L` of each other, every remaining task is at most `L` long, and
the combined byte total fits in a `u64`, then both facts persist to the end
of the loop. -/
theorem foldTasks_balance (L S : Nat) (hS : S < U64MOD) :
    ∀ (ts : List FileScanTask) (st : List FileScanTaskGroup), st ≠ [] →
    (∀ x ∈ ts, x.length ≤ L) →
    (∀ g ∈ st, g.total_length = sumLen g.tasks) →
    (∀ g1 ∈ st, ∀ g2 ∈ st, g1.total_length ≤ g2.total_length + L) →
    (st.map FileScanTaskGroup.total_length).sum + sumLen ts ≤ S →
    (∀ g ∈ foldTasks st ts, g.total_length = sumLen g.tasks) ∧
    (∀ g1 ∈ foldTasks st ts, ∀ g2 ∈ foldTasks st ts,
      g1.total_length ≤ g2.total_length + L) := by
  intro ts
  induction ts with
  | nil =>
    intro st _ _ hA hC _
    exact ⟨hA, hC⟩
  | cons t ts ih =>
    intro st hne hlen hA hC hsum
    obtain ⟨pre, m, post, hdec, hadd, hmin⟩ := addTask_spec t st hne
    have hm_mem : m ∈ st := by
      rw [hdec]; exact List.mem_append.mpr (Or.inr (List.mem_cons_self _ _))
    have hm_le_sum : m.total_length ≤ (st.map FileScanTaskGroup.total_length).sum :=
      List.single_le_sum (fun x _ => Nat.zero_le x) _
        (List.mem_map_of_mem FileScanTaskGroup.total_length hm_mem)
    have hsumlen : sumLen (t :: ts) = t.length + sumLen ts := by
      simp [sumLen]
    have hnof : m.total_length + t.length < U64MOD := by omega
    have hpush : (pushTask t m).total_length = m.total_length + t.length := by
      simp only [pushTask]
      exact Nat.mod_eq_of_lt hnof
    have hmemc := addTask_mem_cases t st hdec hadd
    have htL : t.length ≤ L := hlen t (List.mem_cons_self _ _)
    -- the stored total of every group equals the true byte total
    have hA' : ∀ g ∈ addTask t st, g.total_length = sumLen g.tasks := by
      intro g hg
      rcases hmemc g hg with h | h
      · subst h
        rw [hpush, hA m hm_mem]
        simp [pushTask, sumLen_append, sumLen]
      · exact hA g h
    -- pairwise balance is preserved
    have hC' : ∀ g1 ∈ addTask t st, ∀ g2 ∈ addTask t st,
        g1.total_length ≤ g2.total_length + L := by
      intro g1 hg1 g2 hg2
      rcases hmemc g1 hg1 with h1 | h1 <;> rcases hmemc g2 hg2 with h2 | h2
      · subst h1; subst h2; omega
      · subst h1
        have := lexLe_len (hmin g2 h2)
        omega
      · subst h2
        have := hC g1 h1 m hm_mem
        omega
      · exact hC g1 h1 g2 h2
    -- the combined stored total grows by exactly the consumed task's length
    have hsum' :
        ((addTask t st).map FileScanTaskGroup.total_length).sum + sumLen ts ≤ S := by
      have he : ((addTask t st).map FileScanTaskGroup.total_length).sum =
          (st.map FileScanTaskGroup.total_length).sum + t.length := by
        rw [hadd, hdec]
        simp only [List.map_append, List.map_cons, List.sum_append, List.sum_cons]
        omega
      omega
    exact ih (addTask t st) (addTask_ne_nil t st hne)
      (fun x hx => hlen x (List.mem_cons_of_mem _ hx)) hA' hC' hsum'

/-- C6 (amended): for every non-empty task list whose combined byte length
fits in a `u64` (so the running `u64` totals do not wrap) and every `N ≥ 1`,
after `split_n_vecs(tasks, N)` the difference between any two group byte
totals — in particular between the largest and the smallest — is at most the
largest single task length. Without the no-overflow hypothesis the claim
fails (see the counterexample): the heap key wraps modulo `2^64` and
subsequent tasks pile onto a group whose true total is already the largest. -/
theorem split_n_vecs_balanced (tasks : List FileScanTask) (n : Nat)
    (hn : 1 ≤ n) (_hne : tasks ≠ []) (hfit : sumLen tasks < U64MOD) :
    ∃ groups, split_n_vecs tasks n = some groups ∧
      ∀ g1 ∈ groups, ∀ g2 ∈ groups,
        sumLen g1 - sumLen g2 ≤ maxLen tasks := by
  have hinit := initGroups_ne_nil hn
  refine ⟨(foldTasks (initGroups n) tasks).map FileScanTaskGroup.tasks, ?_, ?_⟩
  · rw [split_n_vecs, foldl_splitStep_some tasks _ hinit]
    rfl
  · have hinitA : ∀ g ∈ initGroups n, g.total_length = sumLen g.tasks := by
      intro g hg
      rcases List.mem_map.mp hg with ⟨i, _, h⟩
      rw [← h]
      simp [sumLen]
    have hinitC : ∀ g1 ∈ initGroups n, ∀ g2 ∈ initGroups n,
        g1.total_length ≤ g2.total_length + maxLen tasks := by
      intro g1 hg1 g2 hg2
      rcases List.mem_map.mp hg1 with ⟨i1, _, h1⟩
      rcases List.mem_map.mp hg2 with ⟨i2, _, h2⟩
      rw [← h1, ← h2]
      exact Nat.zero_le _
    have hinitsum : ((initGroups n).map FileScanTaskGroup.total_length).sum +
        sumLen tasks ≤ sumLen tasks := by
      have : ((initGroups n).map FileScanTaskGroup.total_length).sum = 0 := by
        apply List.sum_eq_zero
        intro x hx
        rw [initGroups, List.map_map] at hx
        rcases List.mem_map.mp hx with ⟨i, _, h⟩
        exact h.symm
      omega
    obtain ⟨hA, hC⟩ := foldTasks_balance (maxLen tasks) (sumLen tasks) hfit
      tasks (initGroups n) hinit (length_le_maxLen tasks) hinitA hinitC hinitsum
    intro g1 hg1 g2 hg2
    rcases List.mem_map.mp hg1 with ⟨G1, hG1, h1⟩
    rcases List.mem_map.mp hg2 with ⟨G2, hG2, h2⟩
    have e1 := hA G1 hG1
    have e2 := hA G2 hG2
    have := hC G1 hG1 G2 hG2
    rw [← h1, ← h2, ← e1, ← e2]
    omega

/-- C6 witness: a concrete instance of the amended claim. -/
theorem split_n_vecs_balanced_witness :
    ∃ groups,
      split_n_vecs [plainTask "a" 5, plainTask "b" 3] 2 = some groups ∧
      ∀ g1 ∈ groups, ∀ g2 ∈ groups,
        sumLen g1 - sumLen g2 ≤ maxLen [plainTask "a" 5, plainTask "b" 3] :=
  split_n_vecs_balanced [plainTask "a" 5, plainTask "b" 3] 2
    (by omega) (List.cons_ne_nil _ _) (by decide)

/-- Tasks realizing the `u64` overflow counterexample to the unrestricted
balance claim: three tasks of the maximal `u64` length and two short ones. -/
def hugeTask (name : String) : FileScanTask := plainTask name (2 ^ 64 - 1)

/-- C6 counterexample: with valid `u64` task lengths whose sum exceeds
`2^64`, the running `u64` total of group `0` wraps around, the heap then
keeps scheduling onto group `0`, and the final difference between the two
group byte totals (`2^64 + 5`) exceeds the largest task length
(`2^64 - 1`) — the claimed bound fails on the code as written. -/
theorem split_n_vecs_balance_overflow_cex :
    split_n_vecs
      [hugeTask "a", hugeTask "b", hugeTask "c", plainTask "d" 3, plainTask "e" 3] 2 =
      some [[hugeTask "a", hugeTask "c", plainTask "d" 3, plainTask "e" 3],
        [hugeTask "b"]] ∧
    maxLen [hugeTask "a", hugeTask "b", hugeTask "c", plainTask "d" 3, plainTask "e" 3] <
      sumLen [hugeTask "a", hugeTask "c", plainTask "d" 3, plainTask "e" 3] -
        sumLen [hugeTask "b"] :=
  ⟨rfl, by decide⟩

/-! ## Scan-task planner: `get_tasks_from_table` (compaction/mod.rs, lines 121-171) -/

/-- The planner's `InputFileScanTasks` record. -/
structure InputFileScanTasks : Type where
  data_files : List FileScanTask
  position_delete_files : List FileScanTask
  equality_delete_files : List FileScanTask

/-- `HashMap::insert` semantics on an association list keyed by file path:
replace the existing entry for the key, or append a fresh one. The Rust
`HashMap` stores each key once; only the key set (not entry order) is
observable through the claims. -/
def insertAssoc (k : String) (v : FileScanTask) :
    List (String × FileScanTask) → List (String × FileScanTask)
  | [] => [(k, v)]
  | (k', v') :: rest =>
    if k' = k then (k, v) :: rest else (k', v') :: insertAssoc k v rest

/-- Mutable state of the planner loop: the two delete-file maps and the
accumulated data-task vector. -/
structure PlanState : Type where
  pos : List (String × FileScanTask)
  eq : List (String × FileScanTask)
  data : List FileScanTask

/-- The `for delete_task in task.deletes.iter()` loop body: position deletes
are recorded with `project_field_ids = []`, equality deletes with
`project_field_ids = equality_ids`; any other content type hits
`unreachable!()`, modeled as `none`. -/
def processDeletes :
    List FileScanTask → List (String × FileScanTask) → List (String × FileScanTask) →
    Option (List (String × FileScanTask) × List (String × FileScanTask))
  | [], pos, eq => some (pos, eq)
  | d :: rest, pos, eq =>
    match d.data_file_content with
    | .PositionDeletes =>
      processDeletes rest
        (insertAssoc d.data_file_path (d.withProjectFieldIds []) pos) eq
    | .EqualityDeletes =>
      processDeletes rest pos
        (insertAssoc d.data_file_path (d.withProjectFieldIds d.equality_ids) eq)
    | .Data => none

/-- The `#[for_await] for task in file_scan_stream` loop: a stream error is
returned via `?`; a top-level task must have content type `Data` (otherwise
`unreachable!()`), its deletes are folded into the two maps, and the task is
pushed onto `data_files`. -/
def planLoop :
    List (Except String FileScanTask) → PlanState → POutcome String PlanState
  | [], st => .ok st
  | .error e :: _, _ => .err e
  | .ok t :: rest, st =>
    match t.data_file_content with
    | .Data =>
      match processDeletes t.deletes st.pos st.eq with
      | none => .panic
      | some (pos', eq') => planLoop rest ⟨pos', eq', st.data ++ [t]⟩
    | .PositionDeletes => .panic
    | .EqualityDeletes => .panic

/-- `get_tasks_from_table`: the input models the outcome of
`table.scan()...build()?` / `scan.plan_files().await?` — either an error
(propagated verbatim by `?`) or the stream of scan-task results. On success
the two maps are flattened with `into_values()` into the deduplicated
position- and equality-delete vectors. -/
def get_tasks_from_table
    (stream : Except String (List (Except String FileScanTask))) :
    POutcome String InputFileScanTasks :=
  match stream with
  | .error e => .err e
  | .ok items =>
    match planLoop items ⟨[], [], []⟩ with
    | .ok st => .ok ⟨st.data, st.pos.map Prod.snd, st.eq.map Prod.snd⟩
    | .err e => .err e
    | .panic => .panic

/-- The top-level tasks successfully emitted by a scan stream, in order. -/
def streamTasks (items : List (Except String FileScanTask)) : List FileScanTask :=
  items.filterMap (fun x => match x with | .ok t => some t | .error _ => none)

/-- Every task visible in a stream: top-level tasks and their deletes. -/
def allTasks (items : List (Except String FileScanTask)) : List FileScanTask :=
  streamTasks items ++ (streamTasks items).flatMap FileScanTask.deletes

/-- Physical well-formedness of a scan stream: a data-file path determines
its content type (two tasks naming the same file agree on content type).
Every real snapshot satisfies this, since content type is a property of the
stored file. -/
def PathConsistent (items : List (Except String FileScanTask)) : Prop :=
  ∀ t1 ∈ allTasks items, ∀ t2 ∈ allTasks items,
    t1.data_file_path = t2.data_file_path →
      t1.data_file_content = t2.data_file_content

/-! ## Planner map lemmas -/

/-- Key set of an association-list map. -/
def keysOf (m : List (String × FileScanTask)) : List String :=
  m.map Prod.fst

theorem withProjectFieldIds_path (t : FileScanTask) (ids : List Nat) :
    (t.withProjectFieldIds ids).data_file_path = t.data_file_path := by
  cases t; rfl

theorem withProjectFieldIds_content (t : FileScanTask) (ids : List Nat) :
    (t.withProjectFieldIds ids).data_file_content = t.data_file_content := by
  cases t; rfl

theorem insertAssoc_cons_hit {k qf : String} {v qs : FileScanTask}
    {m : List (String × FileScanTask)} (h : qf = k) :
    insertAssoc k v ((qf, qs) :: m) = (k, v) :: m := by
  simp [insertAssoc, h]

theorem insertAssoc_cons_miss {k qf : String} {v qs : FileScanTask}
    {m : List (String × FileScanTask)} (h : qf ≠ k) :
    insertAssoc k v ((qf, qs) :: m) = (qf, qs) :: insertAssoc k v m := by
  simp [insertAssoc, h]

theorem insertAssoc_mem {k : String} {v : FileScanTask}
    {m : List (String × FileScanTask)} :
    ∀ p ∈ insertAssoc k v m, p = (k, v) ∨ p ∈ m := by
  induction m with
  | nil =>
    intro p hp
    simp only [insertAssoc, List.mem_singleton] at hp
    exact Or.inl hp
  | cons q m ih =>
    obtain ⟨qf, qs⟩ := q
    intro p hp
    by_cases hk : qf = k
    · rw [insertAssoc_cons_hit hk] at hp
      rcases List.mem_cons.mp hp with h | h
      · exact Or.inl h
      · exact Or.inr (List.mem_cons_of_mem _ h)
    · rw [insertAssoc_cons_miss hk] at hp
      rcases List.mem_cons.mp hp with h | h
      · rw [h]; exact Or.inr (List.mem_cons_self _ _)
      · rcases ih p h with h2 | h2
        · exact Or.inl h2
        · exact Or.inr (List.mem_cons_of_mem _ h2)

theorem mem_keys_insertAssoc {k k' : String} {v : FileScanTask}
    {m : List (String × FileScanTask)} :
    k' ∈ keysOf (insertAssoc k v m) ↔ k' = k ∨ k' ∈ keysOf m := by
  induction m with
  | nil => simp [insertAssoc, keysOf]
  | cons q m ih =>
    obtain ⟨qf, qs⟩ := q
    by_cases hk : qf = k
    · rw [insertAssoc_cons_hit hk]
      subst hk
      simp only [keysOf, List.map_cons, List.mem_cons]
      tauto
    · rw [insertAssoc_cons_miss hk]
      simp only [keysOf, List.map_cons, List.mem_cons] at ih ⊢
      rw [ih]
      tauto

theorem nodup_keys_insertAssoc {k : String} {v : FileScanTask}
    {m : List (String × FileScanTask)} (h : (keysOf m).Nodup) :
    (keysOf (insertAssoc k v m)).Nodup := by
  induction m with
  | nil => simp [insertAssoc, keysOf]
  | cons q m ih =>
    obtain ⟨qf, qs⟩ := q
    simp only [keysOf, List.map_cons, List.nodup_cons] at h
    by_cases hk : qf = k
    · rw [insertAssoc_cons_hit hk]
      simp only [keysOf, List.map_cons, List.nodup_cons]
      exact ⟨hk ▸ h.1, h.2⟩
    · rw [insertAssoc_cons_miss hk]
      simp only [keysOf, List.map_cons, List.nodup_cons]
      refine ⟨?_, ih h.2⟩
      intro habs
      rcases mem_keys_insertAssoc.mp habs with h2 | h2
      · exact hk h2
      · exact h.1 h2

/-! ## Planner loop invariants -/

/-- Invariant of one delete-file map: keys are distinct, every entry is
stored under its own file path, and (w.r.t. a content-type oracle `ctype`)
every key names a file of content type `c`. -/
structure MapInv (ctype : String → DataContentType) (c : DataContentType)
    (m : List (String × FileScanTask)) : Prop where
  keys_nodup : (keysOf m).Nodup
  entry_path : ∀ p ∈ m, p.2.data_file_path = p.1
  key_ctype : ∀ k ∈ keysOf m, ctype k = c

theorem MapInv.insert {ctype : String → DataContentType} {c : DataContentType}
    {m : List (String × FileScanTask)} (h : MapInv ctype c m)
    (d : FileScanTask) (ids : List Nat) (hc : ctype d.data_file_path = c) :
    MapInv ctype c (insertAssoc d.data_file_path (d.withProjectFieldIds ids) m) := by
  refine ⟨nodup_keys_insertAssoc h.keys_nodup, ?_, ?_⟩
  · intro p hp
    rcases insertAssoc_mem p hp with h2 | h2
    · rw [h2]
      exact withProjectFieldIds_path d ids
    · exact h.entry_path p h2
  · intro k hk
    rcases mem_keys_insertAssoc.mp hk with h2 | h2
    · rw [h2]; exact hc
    · exact h.key_ctype k h2

/-- Effect of the delete loop on success: both map invariants persist, the
key sets only grow, and every delete of the processed list ends up keyed in
one of the two maps. -/
theorem processDeletes_inv (ctype : String → DataContentType) :
    ∀ (ds : List FileScanTask) (pos eq : List (String × FileScanTask))
      (pos' eq' : List (String × FileScanTask)),
    processDeletes ds pos eq = some (pos', eq') →
    (∀ d ∈ ds, ctype d.data_file_path = d.data_file_content) →
    MapInv ctype .PositionDeletes pos →
    MapInv ctype .EqualityDeletes eq →
    MapInv ctype .PositionDeletes pos' ∧ MapInv ctype .EqualityDeletes eq' ∧
    (∀ k ∈ keysOf pos, k ∈ keysOf pos') ∧
    (∀ k ∈ keysOf eq, k ∈ keysOf eq') ∧
    (∀ d ∈ ds, d.data_file_path ∈ keysOf pos' ∨ d.data_file_path ∈ keysOf eq') := by
  intro ds
  induction ds with
  | nil =>
    intro pos eq pos' eq' h _ hpos heq
    simp only [processDeletes, Option.some.injEq, Prod.mk.injEq] at h
    obtain ⟨h1, h2⟩ := h
    subst h1; subst h2
    exact ⟨hpos, heq, fun k hk => hk, fun k hk => hk,
      fun d hd => absurd hd (List.not_mem_nil d)⟩
  | cons d ds ih =>
    intro pos eq pos' eq' h hds hpos heq
    have hd_ctype : ctype d.data_file_path = d.data_file_content :=
      hds d (List.mem_cons_self _ _)
    cases hcd : d.data_file_content with
    | Data =>
      rw [show processDeletes (d :: ds) pos eq = none by
        simp only [processDeletes, hcd]] at h
      exact absurd h (by simp)
    | PositionDeletes =>
      rw [show processDeletes (d :: ds) pos eq =
          processDeletes ds
            (insertAssoc d.data_file_path (d.withProjectFieldIds []) pos) eq by
        simp only [processDeletes, hcd]] at h
      have hpos2 := hpos.insert d [] (hcd ▸ hd_ctype)
      obtain ⟨hp', he', hmonop, hmonoe, hcov⟩ :=
        ih _ eq pos' eq' h (fun x hx => hds x (List.mem_cons_of_mem _ hx)) hpos2 heq
      refine ⟨hp', he', ?_, hmonoe, ?_⟩
      · intro k hk
        exact hmonop k (mem_keys_insertAssoc.mpr (Or.inr hk))
      · intro x hx
        rcases List.mem_cons.mp hx with h2 | h2
        · subst h2
          exact Or.inl (hmonop _ (mem_keys_insertAssoc.mpr (Or.inl rfl)))
        · exact hcov x h2
    | EqualityDeletes =>
      rw [show processDeletes (d :: ds) pos eq =
          processDeletes ds pos
            (insertAssoc d.data_file_path (d.withProjectFieldIds d.equality_ids) eq) by
        simp only [processDeletes, hcd]] at h
      have heq2 := heq.insert d d.equality_ids (hcd ▸ hd_ctype)
      obtain ⟨hp', he', hmonop, hmonoe, hcov⟩ :=
        ih pos _ pos' eq' h (fun x hx => hds x (List.mem_cons_of_mem _ hx)) hpos heq2
      refine ⟨hp', he', hmonop, ?_, ?_⟩
      · intro k hk
        exact hmonoe k (mem_keys_insertAssoc.mpr (Or.inr hk))
      · intro x hx
        rcases List.mem_cons.mp hx with h2 | h2
        · subst h2
          exact Or.inr (hmonoe _ (mem_keys_insertAssoc.mpr (Or.inl rfl)))
        · exact hcov x h2

theorem streamTasks_cons_ok (t : FileScanTask)
    (rest : List (Except String FileScanTask)) :
    streamTasks (.ok t :: rest) = t :: streamTasks rest := by
  simp [streamTasks]

/-- The main planner-loop invariant: on success, map invariants persist, data
tasks are appended in stream order, every data task names a `Data` file, and
every delete of every data task is keyed in one of the two maps. -/
theorem planLoop_inv (ctype : String → DataContentType) :
    ∀ (items : List (Except String FileScanTask)) (st st' : PlanState),
    planLoop items st = .ok st' →
    (∀ t ∈ streamTasks items,
      ctype t.data_file_path = t.data_file_content ∧
      ∀ d ∈ t.deletes, ctype d.data_file_path = d.data_file_content) →
    MapInv ctype .PositionDeletes st.pos →
    MapInv ctype .EqualityDeletes st.eq →
    (∀ d ∈ st.data, ctype d.data_file_path = .Data) →
    (∀ d ∈ st.data, ∀ x ∈ d.deletes,
      x.data_file_path ∈ keysOf st.pos ∨ x.data_file_path ∈ keysOf st.eq) →
    MapInv ctype .PositionDeletes st'.pos ∧
    MapInv ctype .EqualityDeletes st'.eq ∧
    st'.data = st.data ++ streamTasks items ∧
    (∀ d ∈ st'.data, ctype d.data_file_path = .Data) ∧
    (∀ d ∈ st'.data, ∀ x ∈ d.deletes,
      x.data_file_path ∈ keysOf st'.pos ∨ x.data_file_path ∈ keysOf st'.eq) := by
  intro items
  induction items with
  | nil =>
    intro st st' h hstream hpos heq hdata hcov
    have hst : st' = st := by
      simp only [planLoop, POutcome.ok.injEq] at h
      exact h.symm
    subst hst
    simpa [streamTasks] using ⟨hpos, heq, hdata, hcov⟩
  | cons item rest ih =>
    intro st st' h hstream hpos heq hdata hcov
    cases item with
    | error e =>
      rw [show planLoop (.error e :: rest) st = .err e from rfl] at h
      exact absurd h (by simp)
    | ok t =>
      have ht := hstream t (streamTasks_cons_ok t rest ▸ List.mem_cons_self _ _)
      cases hcd : t.data_file_content with
      | PositionDeletes =>
        rw [show planLoop (.ok t :: rest) st = .panic by
          simp [planLoop, hcd]] at h
        exact absurd h (by simp)
      | EqualityDeletes =>
        rw [show planLoop (.ok t :: rest) st = .panic by
          simp [planLoop, hcd]] at h
        exact absurd h (by simp)
      | Data =>
        cases hpd : processDeletes t.deletes st.pos st.eq with
        | none =>
          rw [show planLoop (.ok t :: rest) st = .panic by
            simp [planLoop, hcd, hpd]] at h
          exact absurd h (by simp)
        | some pe =>
          obtain ⟨pos', eq'⟩ := pe
          rw [show planLoop (.ok t :: rest) st =
              planLoop rest ⟨pos', eq', st.data ++ [t]⟩ by
            simp [planLoop, hcd, hpd]] at h
          obtain ⟨hpos', heq', hmonop, hmonoe, hcovt⟩ :=
            processDeletes_inv ctype t.deletes st.pos st.eq pos' eq' hpd
              ht.2 hpos heq
          have hstream' : ∀ u ∈ streamTasks rest,
              ctype u.data_file_path = u.data_file_content ∧
              ∀ d ∈ u.deletes, ctype d.data_file_path = d.data_file_content := by
            intro u hu
            exact hstream u (streamTasks_cons_ok t rest ▸ List.mem_cons_of_mem _ hu)
          have hdata' : ∀ d ∈ st.data ++ [t], ctype d.data_file_path = .Data := by
            intro d hd
            rcases List.mem_append.mp hd with h2 | h2
            · exact hdata d h2
            · rw [List.mem_singleton.mp h2]
              rw [ht.1, hcd]
          have hcov' : ∀ d ∈ st.data ++ [t], ∀ x ∈ d.deletes,
              x.data_file_path ∈ keysOf pos' ∨ x.data_file_path ∈ keysOf eq' := by
            intro d hd x hx
            rcases List.mem_append.mp hd with h2 | h2
            · rcases hcov d h2 x hx with h3 | h3
              · exact Or.inl (hmonop _ h3)
              · exact Or.inr (hmonoe _ h3)
            · rw [List.mem_singleton.mp h2] at hx
              exact hcovt x hx
          obtain ⟨r1, r2, r3, r4, r5⟩ :=
            ih ⟨pos', eq', st.data ++ [t]⟩ st' h hstream' hpos' heq' hdata' hcov'
          refine ⟨r1, r2, ?_, r4, r5⟩
          rw [r3, streamTasks_cons_ok]
          simp

/-- Content type of a file path, read off from the stream itself: the
content type of the first task mentioning the path (`Data` for unmentioned
paths). Under `PathConsistent` this is *the* content type of the path. -/
def ctypeOf (items : List (Except String FileScanTask)) (p : String) :
    DataContentType :=
  match (allTasks items).find? (fun t => t.data_file_path == p) with
  | some t => t.data_file_content
  | none => .Data

theorem ctypeOf_spec {items : List (Except String FileScanTask)}
    (hcons : PathConsistent items) :
    ∀ t ∈ allTasks items, ctypeOf items t.data_file_path = t.data_file_content := by
  intro t ht
  have hex : ((allTasks items).find?
      (fun u => u.data_file_path == t.data_file_path)).isSome := by
    rw [List.find?_isSome]
    exact ⟨t, ht, by simp⟩
  obtain ⟨u, hu⟩ := Option.isSome_iff_exists.mp hex
  have hmem := List.mem_of_find?_eq_some hu
  have hpu : u.data_file_path = t.data_file_path := by
    have := List.find?_some hu
    simpa using this
  rw [ctypeOf, hu]
  exact hcons u hmem t ht hpu

theorem countP_values_eq_count_keys (P : String)
    (m : List (String × FileScanTask))
    (hpath : ∀ p ∈ m, p.2.data_file_path = p.1) :
    (m.map Prod.snd).countP (fun u => u.data_file_path == P) =
      (keysOf m).count P := by
  rw [List.countP_map, keysOf, List.count, List.countP_map]
  apply List.countP_congr
  intro p hp
  simp only [Function.comp_apply, beq_iff_eq]
  rw [hpath p hp]

theorem count_keys_of_mapinv {ctype : String → DataContentType}
    {c : DataContentType} {m : List (String × FileScanTask)}
    (hinv : MapInv ctype c m) (P : String) :
    (keysOf m).count P = if P ∈ keysOf m then 1 else 0 := by
  by_cases h : P ∈ keysOf m
  · rw [if_pos h]
    exact List.count_eq_one_of_mem hinv.keys_nodup h
  · rw [if_neg h]
    exact List.count_eq_zero_of_not_mem h

/-- C2: on a successful plan over a path-consistent scan stream, the planner
emits the data tasks in stream order; every delete URI referenced by any
data task appears exactly once across the two delete vectors (duplicates
across data tasks are collapsed by the URI-keyed maps); and the URI sets of
the position-delete, equality-delete, and data vectors are pairwise
disjoint. -/
theorem get_tasks_from_table_invariants
    (items : List (Except String FileScanTask)) (res : InputFileScanTasks)
    (hok : get_tasks_from_table (.ok items) = .ok res)
    (hcons : PathConsistent items) :
    res.data_files = streamTasks items ∧
    (∀ d ∈ res.data_files, ∀ x ∈ d.deletes,
      (res.position_delete_files ++ res.equality_delete_files).countP
        (fun u => u.data_file_path == x.data_file_path) = 1) ∧
    (∀ p ∈ res.position_delete_files, ∀ q ∈ res.equality_delete_files,
      p.data_file_path ≠ q.data_file_path) ∧
    (∀ p ∈ res.position_delete_files, ∀ d ∈ res.data_files,
      p.data_file_path ≠ d.data_file_path) ∧
    (∀ q ∈ res.equality_delete_files, ∀ d ∈ res.data_files,
      q.data_file_path ≠ d.data_file_path) := by
  simp only [get_tasks_from_table] at hok
  cases hpl : planLoop items ⟨[], [], []⟩ with
  | err e => rw [hpl] at hok; exact absurd hok (by simp)
  | panic => rw [hpl] at hok; exact absurd hok (by simp)
  | ok st =>
    rw [hpl] at hok
    have hok2 : (POutcome.ok
        ⟨st.data, st.pos.map Prod.snd, st.eq.map Prod.snd⟩ :
          POutcome String InputFileScanTasks) =
        .ok res := hok
    have hres : res = ⟨st.data, st.pos.map Prod.snd, st.eq.map Prod.snd⟩ := by
      simp only [POutcome.ok.injEq] at hok2
      exact hok2.symm
    subst hres
    have hstream : ∀ t ∈ streamTasks items,
        ctypeOf items t.data_file_path = t.data_file_content ∧
        ∀ d ∈ t.deletes,
          ctypeOf items d.data_file_path = d.data_file_content := by
      intro t ht
      constructor
      · exact ctypeOf_spec hcons t (List.mem_append.mpr (Or.inl ht))
      · intro d hd
        refine ctypeOf_spec hcons d (List.mem_append.mpr (Or.inr ?_))
        exact List.mem_flatMap.mpr ⟨t, ht, hd⟩
    have hinit_pos : MapInv (ctypeOf items) .PositionDeletes ([] : List (String × FileScanTask)) :=
      ⟨List.nodup_nil, fun p hp => absurd hp (List.not_mem_nil p),
        fun k hk => absurd hk (List.not_mem_nil k)⟩
    have hinit_eq : MapInv (ctypeOf items) .EqualityDeletes ([] : List (String × FileScanTask)) :=
      ⟨List.nodup_nil, fun p hp => absurd hp (List.not_mem_nil p),
        fun k hk => absurd hk (List.not_mem_nil k)⟩
    obtain ⟨hpos, heq, hdata, hctype, hcov⟩ :=
      planLoop_inv (ctypeOf items) items ⟨[], [], []⟩ st hpl hstream
        hinit_pos hinit_eq
        (fun d hd => absurd hd (List.not_mem_nil d))
        (fun d hd => absurd hd (List.not_mem_nil d))
    refine ⟨by simpa using hdata, ?_, ?_, ?_, ?_⟩
    · -- exactly-once across the two delete vectors
      intro d hd x hx
      rw [List.countP_append,
        countP_values_eq_count_keys _ _ hpos.entry_path,
        countP_values_eq_count_keys _ _ heq.entry_path,
        count_keys_of_mapinv hpos, count_keys_of_mapinv heq]
      have hnotboth : ¬ (x.data_file_path ∈ keysOf st.pos ∧
          x.data_file_path ∈ keysOf st.eq) := by
        rintro ⟨h1, h2⟩
        have e1 := hpos.key_ctype _ h1
        have e2 := heq.key_ctype _ h2
        rw [e1] at e2
        exact absurd e2 (by simp)
      rcases hcov d hd x hx with h1 | h1
      · rw [if_pos h1, if_neg (fun h2 => hnotboth ⟨h1, h2⟩)]
      · rw [if_pos h1, if_neg (fun h2 => hnotboth ⟨h2, h1⟩)]
    · -- position vs equality URIs
      intro p hp q hq habs
      rcases List.mem_map.mp hp with ⟨kvp, hkvp, hvp⟩
      rcases List.mem_map.mp hq with ⟨kvq, hkvq, hvq⟩
      have e1 : ctypeOf items p.data_file_path = .PositionDeletes := by
        rw [← hvp, hpos.entry_path kvp hkvp]
        exact hpos.key_ctype _ (List.mem_map_of_mem Prod.fst hkvp)
      have e2 : ctypeOf items q.data_file_path = .EqualityDeletes := by
        rw [← hvq, heq.entry_path kvq hkvq]
        exact heq.key_ctype _ (List.mem_map_of_mem Prod.fst hkvq)
      rw [habs, e2] at e1
      exact absurd e1 (by simp)
    · -- position vs data URIs
      intro p hp d hd habs
      rcases List.mem_map.mp hp with ⟨kvp, hkvp, hvp⟩
      have e1 : ctypeOf items p.data_file_path = .PositionDeletes := by
        rw [← hvp, hpos.entry_path kvp hkvp]
        exact hpos.key_ctype _ (List.mem_map_of_mem Prod.fst hkvp)
      have e2 := hctype d hd
      rw [habs, e2] at e1
      exact absurd e1 (by simp)
    · -- equality vs data URIs
      intro q hq d hd habs
      rcases List.mem_map.mp hq with ⟨kvq, hkvq, hvq⟩
      have e1 : ctypeOf items q.data_file_path = .EqualityDeletes := by
        rw [← hvq, heq.entry_path kvq hkvq]
        exact heq.key_ctype _ (List.mem_map_of_mem Prod.fst hkvq)
      have e2 := hctype d hd
      rw [habs, e2] at e1
      exact absurd e1 (by simp)

/-- Fixture for the planner witness: a position delete, an equality delete,
and a data task referencing both. -/
def witPosDel : FileScanTask := .mk "pd" .PositionDeletes 4 1 [7] [] []

def witEqDel : FileScanTask := .mk "ed" .EqualityDeletes 4 2 [9] [3] []

def witData : FileScanTask := .mk "df" .Data 10 5 [1, 2] [] [witPosDel, witEqDel]

def witItems : List (Except String FileScanTask) := [.ok witData]

def witRes : InputFileScanTasks :=
  ⟨[witData],
    [FileScanTask.mk "pd" .PositionDeletes 4 1 [] [] []],
    [FileScanTask.mk "ed" .EqualityDeletes 4 2 [3] [3] []]⟩

/-- C2 witness: the planner invariants instantiated on a concrete stream. -/
theorem get_tasks_from_table_invariants_witness :
    witRes.data_files = streamTasks witItems ∧
    (∀ d ∈ witRes.data_files, ∀ x ∈ d.deletes,
      (witRes.position_delete_files ++ witRes.equality_delete_files).countP
        (fun u => u.data_file_path == x.data_file_path) = 1) ∧
    (∀ p ∈ witRes.position_delete_files, ∀ q ∈ witRes.equality_delete_files,
      p.data_file_path ≠ q.data_file_path) ∧
    (∀ p ∈ witRes.position_delete_files, ∀ d ∈ witRes.data_files,
      p.data_file_path ≠ d.data_file_path) ∧
    (∀ q ∈ witRes.equality_delete_files, ∀ d ∈ witRes.data_files,
      q.data_file_path ≠ d.data_file_path) :=
  get_tasks_from_table_invariants witItems witRes rfl
    (by unfold PathConsistent; decide)

/-! ## Planner error behavior (C3) -/

theorem planLoop_append (as bs : List (Except String FileScanTask)) :
    ∀ st st', planLoop as st = .ok st' →
    planLoop (as ++ bs) st = planLoop bs st' := by
  induction as with
  | nil =>
    intro st st' h
    have h2 : st' = st := by
      simp only [planLoop, POutcome.ok.injEq] at h
      exact h.symm
    rw [h2]
    rfl
  | cons item rest ih =>
    intro st st' h
    cases item with
    | error e =>
      rw [show planLoop (.error e :: rest) st = .err e from rfl] at h
      exact absurd h (by simp)
    | ok t =>
      cases hcd : t.data_file_content with
      | PositionDeletes =>
        rw [show planLoop (.ok t :: rest) st = .panic by simp [planLoop, hcd]] at h
        exact absurd h (by simp)
      | EqualityDeletes =>
        rw [show planLoop (.ok t :: rest) st = .panic by simp [planLoop, hcd]] at h
        exact absurd h (by simp)
      | Data =>
        cases hpd : processDeletes t.deletes st.pos st.eq with
        | none =>
          rw [show planLoop (.ok t :: rest) st = .panic by
            simp [planLoop, hcd, hpd]] at h
          exact absurd h (by simp)
        | some pe =>
          obtain ⟨pos', eq'⟩ := pe
          rw [show planLoop (.ok t :: rest) st =
              planLoop rest ⟨pos', eq', st.data ++ [t]⟩ by
            simp [planLoop, hcd, hpd]] at h
          have h3 : planLoop ((.ok t :: rest) ++ bs) st =
              planLoop (rest ++ bs) ⟨pos', eq', st.data ++ [t]⟩ := by
            simp [planLoop, hcd, hpd]
          rw [h3]
          exact ih _ st' h

theorem processDeletes_none_of_bad (ds : List FileScanTask)
    (x : FileScanTask) (hx : x ∈ ds) (hcx : x.data_file_content = .Data) :
    ∀ pos eq, processDeletes ds pos eq = none := by
  induction ds with
  | nil => exact absurd hx (List.not_mem_nil x)
  | cons d rest ih =>
    intro pos eq
    cases hcd : d.data_file_content with
    | Data => simp [processDeletes, hcd]
    | PositionDeletes =>
      have hx' : x ∈ rest := by
        rcases List.mem_cons.mp hx with h | h
        · rw [h, hcd] at hcx; exact absurd hcx (by simp)
        · exact h
      simp only [processDeletes, hcd]
      exact ih hx' _ _
    | EqualityDeletes =>
      have hx' : x ∈ rest := by
        rcases List.mem_cons.mp hx with h | h
        · rw [h, hcd] at hcx; exact absurd hcx (by simp)
        · exact h
      simp only [processDeletes, hcd]
      exact ih hx' _ _

/-- C3 (amended): scan-build and stream errors are propagated verbatim by
the planner, but an unexpected content type does not produce a
protocol-error result: it hits `unreachable!()` and panics. The panic
occurs both for a non-`Data` top-level task and for a delete entry of a
data task whose content type is `Data`. -/
theorem get_tasks_from_table_errors :
    (∀ e, get_tasks_from_table (.error e) = .err e) ∧
    (∀ pre st e rest, planLoop pre ⟨[], [], []⟩ = .ok st →
      get_tasks_from_table (.ok (pre ++ .error e :: rest)) = .err e) ∧
    (∀ pre st t rest, planLoop pre ⟨[], [], []⟩ = .ok st →
      t.data_file_content ≠ .Data →
      get_tasks_from_table (.ok (pre ++ .ok t :: rest)) = .panic) ∧
    (∀ pre st t x rest, planLoop pre ⟨[], [], []⟩ = .ok st →
      t.data_file_content = .Data →
      x ∈ t.deletes → x.data_file_content = .Data →
      get_tasks_from_table (.ok (pre ++ .ok t :: rest)) = .panic) := by
  refine ⟨fun e => rfl, ?_, ?_, ?_⟩
  · intro pre st e rest hpre
    simp only [get_tasks_from_table]
    rw [planLoop_append pre (.error e :: rest) _ st hpre]
    rfl
  · intro pre st t rest hpre hct
    simp only [get_tasks_from_table]
    rw [planLoop_append pre (.ok t :: rest) _ st hpre]
    cases hcd : t.data_file_content with
    | Data => exact absurd hcd hct
    | PositionDeletes => simp [planLoop, hcd]
    | EqualityDeletes => simp [planLoop, hcd]
  · intro pre st t x rest hpre hct hx hcx
    simp only [get_tasks_from_table]
    rw [planLoop_append pre (.ok t :: rest) _ st hpre]
    have hpd := processDeletes_none_of_bad t.deletes x hx hcx st.pos st.eq
    simp [planLoop, hct, hpd]

/-- C3 counterexample: a scan stream yielding a top-level position-delete
task makes the planner hit `unreachable!()` — the model panics, instead of
returning a protocol-error result as the claim states. -/
theorem get_tasks_from_table_unexpected_content_panics :
    get_tasks_from_table (.ok [.ok (.mk "p1" .PositionDeletes 1 0 [] [] [])]) =
      .panic := rfl

/-- C3 witness: the error-propagation and panic statements instantiated on
concrete streams. -/
theorem get_tasks_from_table_errors_witness :
    get_tasks_from_table (.error "build failed") = .err "build failed" ∧
    get_tasks_from_table (.ok ([] ++ .error "stream broke" :: [])) =
      .err "stream broke" ∧
    get_tasks_from_table
      (.ok ([] ++ .ok (.mk "q" .EqualityDeletes 2 0 [] [] []) :: [])) = .panic ∧
    get_tasks_from_table
      (.ok ([] ++
        .ok (.mk "d" .Data 2 0 [] [] [.mk "x" .Data 1 0 [] [] []]) :: [])) =
      .panic :=
  ⟨get_tasks_from_table_errors.1 "build failed",
    get_tasks_from_table_errors.2.1 [] ⟨[], [], []⟩ "stream broke" [] rfl,
    get_tasks_from_table_errors.2.2.1 [] ⟨[], [], []⟩
      (.mk "q" .EqualityDeletes 2 0 [] [] []) [] rfl (by simp [FileScanTask.data_file_content]),
    get_tasks_from_table_errors.2.2.2 [] ⟨[], [], []⟩
      (.mk "d" .Data 2 0 [] [] [.mk "x" .Data 1 0 [] [] []])
      (.mk "x" .Data 1 0 [] [] []) [] rfl rfl
      (by simp [FileScanTask.deletes]) rfl⟩

/-! ## Old-file enumerator: `get_old_files_from_table`
(compaction/mod.rs, lines 90-119) -/

/-- One manifest entry: a content type plus the described data file,
abstracted to its URI (the code clones the whole `DataFile`; only identity
matters to the claims). -/
structure ManifestEntryModel : Type where
  content : DataContentType
  data_file : String
deriving DecidableEq

/-- Table view consumed by the enumerator: the current snapshot, when
present, carries its manifest list (one entry list per manifest file). The
manifest loads themselves are modeled as already materialized. -/
structure TableSnapshotView : Type where
  current_snapshot : Option (List (List ManifestEntryModel))
deriving DecidableEq

/-- The inner routing loop of `get_old_files_from_table`: `Data` entries are
pushed onto `data_file`, `EqualityDeletes` and `PositionDeletes` entries
onto `delete_file`. -/
def routeEntries :
    List ManifestEntryModel → List String → List String →
    List String × List String
  | [], data_file, delete_file => (data_file, delete_file)
  | e :: rest, data_file, delete_file =>
    match e.content with
    | .Data => routeEntries rest (data_file ++ [e.data_file]) delete_file
    | .EqualityDeletes => routeEntries rest data_file (delete_file ++ [e.data_file])
    | .PositionDeletes => routeEntries rest data_file (delete_file ++ [e.data_file])

/-- `get_old_files_from_table`:
`table.metadata().current_snapshot().unwrap()` panics when there is no
current snapshot; otherwise every entry of every manifest is routed by
content type. -/
def get_old_files_from_table (t : TableSnapshotView) :
    POutcome String (List String × List String) :=
  match t.current_snapshot with
  | none => .panic
  | some manifest_list => .ok (routeEntries manifest_list.flatten [] [])

/-- Selector for `Data` entries. -/
def dataEntrySel (e : ManifestEntryModel) : Option String :=
  match e.content with
  | .Data => some e.data_file
  | _ => none

/-- Selector for `PositionDeletes` / `EqualityDeletes` entries. -/
def deleteEntrySel (e : ManifestEntryModel) : Option String :=
  match e.content with
  | .Data => none
  | _ => some e.data_file

theorem routeEntries_filterMap (es : List ManifestEntryModel) :
    ∀ data_file delete_file,
    routeEntries es data_file delete_file =
      (data_file ++ es.filterMap dataEntrySel,
        delete_file ++ es.filterMap deleteEntrySel) := by
  induction es with
  | nil => intro a b; simp [routeEntries]
  | cons e rest ih =>
    intro a b
    cases hc : e.content with
    | Data =>
      simp only [routeEntries, hc, ih, List.filterMap_cons, dataEntrySel,
        deleteEntrySel, hc]
      simp
    | EqualityDeletes =>
      simp only [routeEntries, hc, ih, List.filterMap_cons, dataEntrySel,
        deleteEntrySel, hc]
      simp
    | PositionDeletes =>
      simp only [routeEntries, hc, ih, List.filterMap_cons, dataEntrySel,
        deleteEntrySel, hc]
      simp

/-- C4 counterexample: with no current snapshot the enumerator panics
(`current_snapshot().unwrap()`), instead of failing with a no-snapshot
error result as the claim states. -/
theorem get_old_files_no_snapshot_panics :
    get_old_files_from_table ⟨none⟩ = .panic := rfl

/-- C4 (amended): when the table has no current snapshot the enumerator
panics (it does not return an error result); when a snapshot is present it
routes every manifest entry with content type `Data` into `data_files` and
every `PositionDeletes` or `EqualityDeletes` entry into `delete_files`,
in manifest order. -/
theorem get_old_files_from_table_routing :
    get_old_files_from_table ⟨none⟩ = .panic ∧
    ∀ manifest_list,
      get_old_files_from_table ⟨some manifest_list⟩ =
        .ok (manifest_list.flatten.filterMap dataEntrySel,
          manifest_list.flatten.filterMap deleteEntrySel) := by
  refine ⟨rfl, fun manifest_list => ?_⟩
  show POutcome.ok (routeEntries manifest_list.flatten [] []) = _
  rw [routeEntries_filterMap]
  simp

/-! ## Arrow record batches and hidden-column decoration
(iceberg_file_task_scan.rs, lines 265-348) -/

/-- `SYS_HIDDEN_SEQ_NUM` from datafusion_processor.rs. -/
def SYS_HIDDEN_SEQ_NUM : String := "sys_hidden_seq_num"

/-- The Arrow data types used by the decoration code. -/
inductive ArrowDataType : Type where
  | int64
  | utf8
deriving DecidableEq

/-- An Arrow schema field: name, data type, nullability. -/
structure ArrowField : Type where
  name : String
  dtype : ArrowDataType
  nullable : Bool
deriving DecidableEq

/-- An Arrow column (nulls do not occur in the modeled code paths). -/
inductive ArrowArray : Type where
  | int64Arr (values : List Int)
  | utf8Arr (values : List String)
deriving DecidableEq

def ArrowArray.length : ArrowArray → Nat
  | .int64Arr vs => vs.length
  | .utf8Arr vs => vs.length

def ArrowArray.dtype : ArrowArray → ArrowDataType
  | .int64Arr _ => .int64
  | .utf8Arr _ => .utf8

/-- An Arrow `RecordBatch`: schema fields, columns, and the row count. -/
structure RecordBatch : Type where
  fields : List ArrowField
  columns : List ArrowArray
  numRows : Nat
deriving DecidableEq

/-- `RecordBatch::try_new(schema, columns)`: requires at least one column,
one column per field, equal column lengths, and column types matching the
schema; the row count is the length of the first column. -/
def RecordBatch.try_new (fields : List ArrowField) (columns : List ArrowArray) :
    Except String RecordBatch :=
  match columns with
  | [] => .error "a record batch requires at least one column"
  | c0 :: _ =>
    if fields.length ≠ columns.length then
      .error "number of columns must match number of fields"
    else if columns.any (fun c => c.length ≠ c0.length) then
      .error "all columns must have the same length"
    else if (List.zip fields columns).any (fun fc => fc.1.dtype ≠ fc.2.dtype) then
      .error "column types must match schema types"
    else .ok ⟨fields, columns, c0.length⟩

/-- A batch obtained from a successful `RecordBatch` construction: columns
and fields are aligned and every column has `numRows` entries. -/
def RecordBatch.WellFormed (b : RecordBatch) : Prop :=
  b.fields.length = b.columns.length ∧
  (∀ c ∈ b.columns, c.length = b.numRows) ∧
  (∀ fc ∈ List.zip b.fields b.columns, fc.1.dtype = fc.2.dtype)

/-- `add_seq_num_into_batch`: append a non-nullable `Int64` column named
`sys_hidden_seq_num` holding `seq_num` in every row. -/
def add_seq_num_into_batch (batch : RecordBatch) (seq_num : Int) :
    Except String RecordBatch :=
  RecordBatch.try_new
    (batch.fields ++ [⟨SYS_HIDDEN_SEQ_NUM, .int64, false⟩])
    (batch.columns ++ [.int64Arr (List.replicate batch.numRows seq_num)])

/-- `add_file_path_pos_into_batch`: append a non-nullable `Utf8` column
`file_path` holding the task's path and a non-nullable `Int64` column `pos`
holding `index_start, index_start+1, ...`. -/
def add_file_path_pos_into_batch (batch : RecordBatch) (file_path : String)
    (index_start : Int) : Except String RecordBatch :=
  RecordBatch.try_new
    (batch.fields ++ [⟨"file_path", .utf8, false⟩, ⟨"pos", .int64, false⟩])
    (batch.columns ++
      [.utf8Arr (List.replicate batch.numRows file_path),
        .int64Arr ((List.range batch.numRows).map
          (fun i => index_start + Int.ofNat i))])

theorem try_new_ok (fields : List ArrowField) (columns : List ArrowArray)
    (n : Nat) (hne : columns ≠ [])
    (hlen : fields.length = columns.length)
    (hrows : ∀ c ∈ columns, c.length = n)
    (htype : ∀ fc ∈ List.zip fields columns, fc.1.dtype = fc.2.dtype) :
    RecordBatch.try_new fields columns = .ok ⟨fields, columns, n⟩ := by
  cases columns with
  | nil => exact absurd rfl hne
  | cons c0 rest =>
    have h1 : ¬ fields.length ≠ (c0 :: rest).length := by
      rw [hlen]
      simp
    have h2 : ¬ ((c0 :: rest).any (fun c => c.length ≠ c0.length) = true) := by
      rw [List.any_eq_true]
      rintro ⟨c, hc, hne2⟩
      have e1 := hrows c hc
      have e2 := hrows c0 (List.mem_cons_self _ _)
      simp only [decide_eq_true_eq] at hne2
      omega
    have h3 : ¬ ((List.zip fields (c0 :: rest)).any
        (fun fc => fc.1.dtype ≠ fc.2.dtype) = true) := by
      rw [List.any_eq_true]
      rintro ⟨fc, hfc, hne3⟩
      simp only [decide_eq_true_eq] at hne3
      exact hne3 (htype fc hfc)
    simp only [RecordBatch.try_new, if_neg h1, if_neg h2, if_neg h3]
    rw [hrows c0 (List.mem_cons_self _ _)]

/-- C8: decorating a record batch with the hidden `sys_hidden_seq_num`
column (non-nullable `Int64`, every value the task's sequence number) or
with the `file_path` and `pos` columns succeeds and preserves the batch's
row count: the decorated batch is the input batch with the new columns
appended and the same `numRows`. The hypothesis is the `RecordBatch`
constructor invariant, which every Arrow batch satisfies. -/
theorem add_hidden_columns_preserve_num_rows (b : RecordBatch) (seq : Int)
    (path : String) (start : Int) (h : b.WellFormed) :
    add_seq_num_into_batch b seq =
      .ok ⟨b.fields ++ [⟨SYS_HIDDEN_SEQ_NUM, .int64, false⟩],
        b.columns ++ [.int64Arr (List.replicate b.numRows seq)], b.numRows⟩ ∧
    add_file_path_pos_into_batch b path start =
      .ok ⟨b.fields ++ [⟨"file_path", .utf8, false⟩, ⟨"pos", .int64, false⟩],
        b.columns ++
          [.utf8Arr (List.replicate b.numRows path),
            .int64Arr ((List.range b.numRows).map
              (fun i => start + Int.ofNat i))], b.numRows⟩ := by
  obtain ⟨wf1, wf2, wf3⟩ := h
  constructor
  · apply try_new_ok
    · simp
    · simp [wf1]
    · intro c hc
      rcases List.mem_append.mp hc with h2 | h2
      · exact wf2 c h2
      · rw [List.mem_singleton.mp h2]
        simp [ArrowArray.length]
    · rw [List.zip_append wf1]
      intro fc hfc
      rcases List.mem_append.mp hfc with h2 | h2
      · exact wf3 fc h2
      · rw [List.mem_singleton.mp h2]
        rfl
  · apply try_new_ok
    · simp
    · simp [wf1]
    · intro c hc
      rcases List.mem_append.mp hc with h2 | h2
      · exact wf2 c h2
      · rcases List.mem_cons.mp h2 with h3 | h3
        · rw [h3]; simp [ArrowArray.length]
        · rw [List.mem_singleton.mp h3]
          simp only [ArrowArray.length]
          rw [List.length_map, List.length_range]
    · rw [List.zip_append wf1]
      intro fc hfc
      rcases List.mem_append.mp hfc with h2 | h2
      · exact wf3 fc h2
      · rcases List.mem_cons.mp h2 with h3 | h3
        · rw [h3]; rfl
        · rw [List.mem_singleton.mp h3]; rfl

/-- C8 witness: a concrete two-row batch, decorated both ways. -/
theorem add_hidden_columns_preserve_num_rows_witness :
    add_seq_num_into_batch ⟨[⟨"v", .int64, true⟩], [.int64Arr [10, 20]], 2⟩ 5 =
      .ok ⟨[⟨"v", .int64, true⟩, ⟨SYS_HIDDEN_SEQ_NUM, .int64, false⟩],
        [.int64Arr [10, 20], .int64Arr (List.replicate 2 5)], 2⟩ ∧
    add_file_path_pos_into_batch ⟨[⟨"v", .int64, true⟩], [.int64Arr [10, 20]], 2⟩
        "f" 0 =
      .ok ⟨[⟨"v", .int64, true⟩, ⟨"file_path", .utf8, false⟩, ⟨"pos", .int64, false⟩],
        [.int64Arr [10, 20], .utf8Arr (List.replicate 2 "f"),
          .int64Arr ((List.range 2).map (fun i => 0 + Int.ofNat i))], 2⟩ :=
  add_hidden_columns_preserve_num_rows ⟨[⟨"v", .int64, true⟩], [.int64Arr [10, 20]], 2⟩
    5 "f" 0 (by unfold RecordBatch.WellFormed; decide)

/-! ## Consumer loop of `get_batch_stream`
(iceberg_file_task_scan.rs, lines 265-294) -/

/-- One `(batch_stream, file_path, content, sequence_number)` tuple received
from the producer channel, with its batches already materialized. -/
structure ChunkItem : Type where
  batches : List RecordBatch
  file_path : String
  data_file_content : DataContentType
  sequence_number : Int

/-- Decoration of one inner batch, exactly as in the consumer `match`:
`Data` batches get the sequence column when `need_seq_num` and the
`(file_path, pos)` columns when `need_file_path_and_pos` (advancing the
running `index_start` by the batch's row count); position-delete batches
pass through; equality-delete batches get the sequence column
unconditionally. -/
def decorateBatch (need_seq_num need_file_path_and_pos : Bool)
    (file_path : String) (content : DataContentType) (seq : Int)
    (b : RecordBatch) (index_start : Int) :
    Except String (RecordBatch × Int) :=
  match content with
  | .Data => do
    let b1 ← if need_seq_num then add_seq_num_into_batch b seq else .ok b
    if need_file_path_and_pos then do
      let b2 ← add_file_path_pos_into_batch b1 file_path index_start
      .ok (b2, index_start + Int.ofNat b2.numRows)
    else .ok (b1, index_start)
  | .PositionDeletes => .ok (b, index_start)
  | .EqualityDeletes => do
    let b1 ← add_seq_num_into_batch b seq
    .ok (b1, index_start)

/-- The inner `while let Some(batch) = batch.next()` loop over one chunk. -/
def consumeBatches (need_seq_num need_file_path_and_pos : Bool)
    (file_path : String) (content : DataContentType) (seq : Int) :
    List RecordBatch → Int → Except String (List RecordBatch × Int)
  | [], index_start => .ok ([], index_start)
  | b :: rest, index_start => do
    let (b1, idx1) ← decorateBatch need_seq_num need_file_path_and_pos
      file_path content seq b index_start
    let (bs, idx2) ← consumeBatches need_seq_num need_file_path_and_pos
      file_path content seq rest idx1
    .ok (b1 :: bs, idx2)

/-- The outer `while let Some(result) = chunk_rx.recv()` loop. Crucially,
`index_start` is declared once, outside this loop, and is threaded across
chunks — it is never reset when a new data file's stream begins. -/
def consumeChunks (need_seq_num need_file_path_and_pos : Bool) :
    List ChunkItem → Int → Except String (List RecordBatch)
  | [], _ => .ok []
  | ch :: rest, index_start => do
    let (bs, idx1) ← consumeBatches need_seq_num need_file_path_and_pos
      ch.file_path ch.data_file_content ch.sequence_number ch.batches index_start
    let out ← consumeChunks need_seq_num need_file_path_and_pos rest idx1
    .ok (bs ++ out)

/-- The record-batch sequence produced by `get_batch_stream`'s consumer for
a given sequence of received chunks: `let mut index_start = 0` precedes the
loop. -/
def get_batch_stream (need_seq_num need_file_path_and_pos : Bool)
    (chunks : List ChunkItem) : Except String (List RecordBatch) :=
  consumeChunks need_seq_num need_file_path_and_pos chunks 0

/-- The values of a decorated batch's `pos` column (its last column). -/
def posValues (b : RecordBatch) : Option (List Int) :=
  match b.columns.getLast? with
  | some (.int64Arr vs) => some vs
  | _ => none

/-- First data file of the C1 failing input: one three-row batch. -/
def fileOneBatch : RecordBatch :=
  ⟨[⟨"v", .int64, true⟩], [.int64Arr [10, 20, 30]], 3⟩

/-- Second data file of the C1 failing input: one two-row batch. -/
def fileTwoBatch : RecordBatch :=
  ⟨[⟨"v", .int64, true⟩], [.int64Arr [7, 8]], 2⟩

/-- C1 evaluation at the failing input: two data files consumed by one
stream with `need_file_path_and_pos` enabled. The first file's batch gets
`pos = [0, 1, 2]`, but the first batch of the second data file gets
`pos = [3, 4]` — the counter is not reset at the file boundary, so the
second file's rows do not carry their row index within their own data file
(which would be `[0, 1]`). -/
theorem get_batch_stream_pos_not_reset_per_file :
    get_batch_stream false true
      [⟨[fileOneBatch], "f1", .Data, 1⟩, ⟨[fileTwoBatch], "f2", .Data, 1⟩] =
      .ok
        [⟨[⟨"v", .int64, true⟩, ⟨"file_path", .utf8, false⟩, ⟨"pos", .int64, false⟩],
          [.int64Arr [10, 20, 30], .utf8Arr ["f1", "f1", "f1"],
            .int64Arr [0, 1, 2]], 3⟩,
        ⟨[⟨"v", .int64, true⟩, ⟨"file_path", .utf8, false⟩, ⟨"pos", .int64, false⟩],
          [.int64Arr [7, 8], .utf8Arr ["f2", "f2"],
            .int64Arr [3, 4]], 2⟩] ∧
    posValues
      ⟨[⟨"v", .int64, true⟩, ⟨"file_path", .utf8, false⟩, ⟨"pos", .int64, false⟩],
        [.int64Arr [7, 8], .utf8Arr ["f2", "f2"],
          .int64Arr [3, 4]], 2⟩ = some [3, 4] ∧
    (some [3, 4] : Option (List Int)) ≠ some [0, 1] := by
  refine ⟨rfl, rfl, by decide⟩

/-! ## Full compaction plumbing: `Compaction::full_compact`
(compaction/mod.rs, lines 27-79) -/

/-- `CompactionConfig`; the `data_file_pfx` field models `data_file_prefix`
(renamed here for tooling reasons only). -/
structure CompactionConfig : Type where
  batch_parallelism : Option Nat
  target_partitions : Option Nat
  data_file_pfx : Option String
deriving DecidableEq

/-- The request handed to the executor; `file_io`, schema and partition
spec are dropped as they are opaque pass-through handles here. -/
structure RewriteFilesRequest : Type where
  input_file_scan_tasks : InputFileScanTasks
  config : CompactionConfig
  dir_path : String

/-- `RewriteFilesStat` (four `u64` counters). -/
structure RewriteFilesStat : Type where
  rewritten_files_count : Nat
  added_files_count : Nat
  rewritten_bytes : Nat
  failed_data_files_count : Nat
deriving DecidableEq

/-- `RewriteFilesResponse`: the produced data files (by URI) and stats. -/
structure RewriteFilesResponse : Type where
  data_files : List String
  stat : RewriteFilesStat

/-- Modelled from the spec: `CompactionExecutor` is the capability set
`{ rewrite_files(request) → response }` (`Box<dyn CompactionExecutor>` in
the struct). The body of the `DataFusionExecutor` implementation lives in
datafusion_processor.rs, which is not among the sources; an executor is
therefore an arbitrary function from requests to fallible responses. -/
def CompactionExecutor : Type :=
  RewriteFilesRequest → Except String RewriteFilesResponse

/-- The `Compaction` struct fields used by `full_compact`: the config and
the executor chosen at construction (`Compaction::new` stores
`DataFusionExecutor::default()` here). The catalog is abstracted into the
table argument below. -/
structure Compaction : Type where
  config : CompactionConfig
  executor : CompactionExecutor

/-- The loaded table, as consumed by `full_compact`: the snapshot view for
the old-file enumeration, the scan-plan outcome for the task planner, and
the default location generator's directory path. -/
structure TableModel : Type where
  snapshot_view : TableSnapshotView
  plan : Except String (List (Except String FileScanTask))
  dir_path : String

/-- The rewrite-files transaction contents committed at the end of
`full_compact`: added output files, deleted old data files, deleted old
delete files. -/
structure CommitRecord : Type where
  added_data_files : List String
  deleted_data_files : List String
  deleted_delete_files : List String

/-- `Compaction::full_compact`: enumerate old files, plan scan tasks, build
the request from the compaction's config, run
`DataFusionExecutor::default().rewrite_files(request)` — note: the *freshly
default-constructed* executor `defaultRewriteFiles`, not `c.executor` —
then build and commit the rewrite transaction and copy out the stats. -/
def full_compact (defaultRewriteFiles : CompactionExecutor)
    (c : Compaction) (table : TableModel) :
    POutcome String (CommitRecord × RewriteFilesStat) :=
  match get_old_files_from_table table.snapshot_view with
  | .panic => .panic
  | .err e => .err e
  | .ok (data_files, delete_files) =>
    match get_tasks_from_table table.plan with
    | .panic => .panic
    | .err e => .err e
    | .ok input_file_scan_tasks =>
      let request : RewriteFilesRequest :=
        ⟨input_file_scan_tasks, c.config, table.dir_path⟩
      match defaultRewriteFiles request with
      | .error e => .err e
      | .ok resp =>
        .ok (⟨resp.data_files, data_files, delete_files⟩,
          ⟨resp.stat.rewritten_files_count, resp.stat.added_files_count,
            resp.stat.rewritten_bytes, resp.stat.failed_data_files_count⟩)

/-- C10: `full_compact` performs the rewrite with a freshly
default-constructed executor and never reads the executor stored in the
`Compaction` struct, so two compactions differing only in the stored
executor produce identical results. -/
theorem full_compact_ignores_stored_executor :
    ∀ (defaultRewriteFiles : CompactionExecutor) (cfg : CompactionConfig)
      (e1 e2 : CompactionExecutor) (table : TableModel),
    full_compact defaultRewriteFiles ⟨cfg, e1⟩ table =
      full_compact defaultRewriteFiles ⟨cfg, e2⟩ table :=
  fun _ _ _ _ _ => rfl
